import Mathlib

/-!
Verification development for the MNIST classification notebook
(`part2_classification.ipynb`) of the odlworkshop course material.

The notebook builds an elementary softmax classifier on 784-pixel images
with 10 classes:

* `elementary_network`: `lin = inp @ weights + bias`, `elin = exp lin`,
  `Z = Σ elin`, `prob = elin / Z`, `log_prob = log prob`,
  `pred = argmax log_prob`;
* `elementary_loss`: `determ = one_hot(labels, 10)`,
  `loss = -mean(determ * log_prob)` (the mean over all `n × 10` entries);
* `elementary_training`: plain gradient descent,
  `update_ops = [var.assign(var - learning_rate * grad)]`;
* `evaluate`: fraction of test samples whose predicted class equals the
  true label, without touching the trainable variables;
* a training loop running a fixed number of unconditional update steps.

Everything below is a shallow embedding of those cells over `ℝ`, with a
batch of size `n` represented as a function `Fin n → Fin 784 → ℝ` and
labels as natural numbers (matching `tf.one_hot`, which produces an
all-zero row for an out-of-range label).
-/

namespace Part2Classification

noncomputable section

/-- Pre-softmax activations of the elementary network for one input sample:
`lin = tf.matmul(inp, weights) + bias`, one real per class. -/
def lin (w : Fin 784 → Fin 10 → ℝ) (b : Fin 10 → ℝ) (x : Fin 784 → ℝ) (k : Fin 10) : ℝ :=
  (∑ i, x i * w i k) + b k

/-- `elin = tf.exp(lin)`. -/
def elin (w : Fin 784 → Fin 10 → ℝ) (b : Fin 10 → ℝ) (x : Fin 784 → ℝ) (k : Fin 10) : ℝ :=
  Real.exp (lin w b x k)

/-- `Z = tf.reduce_sum(elin, axis=1)`, the per-sample softmax normalizer. -/
def Z (w : Fin 784 → Fin 10 → ℝ) (b : Fin 10 → ℝ) (x : Fin 784 → ℝ) : ℝ :=
  ∑ k, elin w b x k

/-- `prob = elin / Z`, the softmax probabilities of one sample. -/
def prob (w : Fin 784 → Fin 10 → ℝ) (b : Fin 10 → ℝ) (x : Fin 784 → ℝ) (k : Fin 10) : ℝ :=
  elin w b x k / Z w b x

/-- `log_prob = tf.log(prob)`. -/
def log_prob (w : Fin 784 → Fin 10 → ℝ) (b : Fin 10 → ℝ) (x : Fin 784 → ℝ) (k : Fin 10) : ℝ :=
  Real.log (prob w b x k)

/-- One row of `determ = tf.one_hot(labels, depth=10)`: entry `k` is `1`
when the integer label equals `k`, else `0` (an out-of-range label gives
an all-zero row, as `tf.one_hot` does). -/
def determ (l : ℕ) (k : Fin 10) : ℝ :=
  if l = (k : ℕ) then 1 else 0

/-- `loss = -tf.reduce_mean(determ * log_prob)`: the sum of the
elementwise product over all `n × 10` entries, divided by `n * 10`,
negated. -/
def loss (n : ℕ) (xs : Fin n → Fin 784 → ℝ) (ys : Fin n → ℕ)
    (w : Fin 784 → Fin 10 → ℝ) (b : Fin 10 → ℝ) : ℝ :=
  -((∑ s, ∑ k, determ (ys s) k * log_prob w b (xs s) k) / ((n : ℝ) * 10))

/-! Basic facts about the softmax probabilities. -/

theorem elin_pos (w : Fin 784 → Fin 10 → ℝ) (b : Fin 10 → ℝ) (x : Fin 784 → ℝ)
    (k : Fin 10) : 0 < elin w b x k :=
  Real.exp_pos _

theorem Z_pos (w : Fin 784 → Fin 10 → ℝ) (b : Fin 10 → ℝ) (x : Fin 784 → ℝ) :
    0 < Z w b x :=
  Finset.sum_pos (fun k _ => elin_pos w b x k) Finset.univ_nonempty

theorem prob_pos (w : Fin 784 → Fin 10 → ℝ) (b : Fin 10 → ℝ) (x : Fin 784 → ℝ)
    (k : Fin 10) : 0 < prob w b x k :=
  div_pos (elin_pos w b x k) (Z_pos w b x)

theorem prob_le_one (w : Fin 784 → Fin 10 → ℝ) (b : Fin 10 → ℝ) (x : Fin 784 → ℝ)
    (k : Fin 10) : prob w b x k ≤ 1 := by
  rw [prob, div_le_one (Z_pos w b x)]
  exact Finset.single_le_sum (fun q _ => (elin_pos w b x q).le) (Finset.mem_univ k)

theorem log_prob_nonpos (w : Fin 784 → Fin 10 → ℝ) (b : Fin 10 → ℝ) (x : Fin 784 → ℝ)
    (k : Fin 10) : log_prob w b x k ≤ 0 :=
  Real.log_nonpos (prob_pos w b x k).le (prob_le_one w b x k)

theorem determ_nonneg (l : ℕ) (k : Fin 10) : 0 ≤ determ l k := by
  unfold determ; split <;> norm_num

/-- `log_prob` splits as the linear activation minus the log-normalizer. -/
theorem log_prob_eq (w : Fin 784 → Fin 10 → ℝ) (b : Fin 10 → ℝ) (x : Fin 784 → ℝ)
    (k : Fin 10) : log_prob w b x k = lin w b x k - Real.log (Z w b x) := by
  rw [log_prob, prob, Real.log_div (elin_pos w b x k).ne' (Z_pos w b x).ne',
    elin, Real.log_exp]

/-- For a label in range, the one-hot row sums to `1`. -/
theorem determ_sum_eq_one (l : ℕ) (hl : l < 10) : ∑ k, determ l k = 1 := by
  have h : ∀ k : Fin 10, determ l k = if (⟨l, hl⟩ : Fin 10) = k then 1 else 0 := by
    intro k
    unfold determ
    congr 1
    simp [Fin.ext_iff, eq_comm]
  rw [Finset.sum_congr rfl fun k _ => h k, Finset.sum_ite_eq]
  simp

/-- C1: for fixed parameters and batch, the elementary cross-entropy
objective is deterministic (recomputing it on the same arguments yields
the same scalar) and non-negative. -/
theorem loss_deterministic_nonneg (n : ℕ) (xs : Fin n → Fin 784 → ℝ)
    (ys : Fin n → ℕ) (w : Fin 784 → Fin 10 → ℝ) (b : Fin 10 → ℝ) :
    loss n xs ys w b = loss n xs ys w b ∧ 0 ≤ loss n xs ys w b := by
  refine ⟨rfl, ?_⟩
  rw [loss, neg_nonneg]
  apply div_nonpos_of_nonpos_of_nonneg
  · apply Finset.sum_nonpos
    intro s _
    apply Finset.sum_nonpos
    intro k _
    exact mul_nonpos_of_nonneg_of_nonpos (determ_nonneg _ k) (log_prob_nonpos w b (xs s) k)
  · positivity

/-- C10: for in-range labels, the objective is the sum over samples of
the negative log-probability of the true class, divided by `n * 10` —
one tenth of the mean negative log-likelihood — because each one-hot row
selects exactly its label's entry. -/
theorem loss_eq_sum_neg_log_prob_div (n : ℕ) (xs : Fin n → Fin 784 → ℝ)
    (ys : Fin n → Fin 10) (w : Fin 784 → Fin 10 → ℝ) (b : Fin 10 → ℝ) :
    loss n xs (fun s => (ys s : ℕ)) w b =
      (∑ s, -(log_prob w b (xs s) (ys s))) / ((n : ℝ) * 10) := by
  have hs : ∀ s : Fin n, ∑ k, determ ((ys s : ℕ)) k * log_prob w b (xs s) k =
      log_prob w b (xs s) (ys s) := by
    intro s
    have h : ∀ k : Fin 10, determ ((ys s : ℕ)) k * log_prob w b (xs s) k =
        if ys s = k then log_prob w b (xs s) k else 0 := by
      intro k
      unfold determ
      by_cases hk : ys s = k
      · simp [hk]
      · have hv : ¬((ys s : ℕ) = (k : ℕ)) := fun hc => hk (Fin.ext hc)
        simp [hv, hk]
    rw [Finset.sum_congr rfl fun k _ => h k, Finset.sum_ite_eq]
    simp
  rw [loss, Finset.sum_congr rfl fun s _ => hs s, Finset.sum_neg_distrib, neg_div]

/-! The gradient of the objective in closed form, and the
`elementary_training` update. The code forms `tf.gradients(loss,
[weights, bias])`; `dlossdW`/`dlossdB` below are the closed-form partial
derivatives of `loss`, proved correct against `loss` further down. -/

/-- Closed form of `∂ loss / ∂ weights i j`. -/
def dlossdW (n : ℕ) (xs : Fin n → Fin 784 → ℝ) (ys : Fin n → ℕ)
    (w : Fin 784 → Fin 10 → ℝ) (b : Fin 10 → ℝ) (i : Fin 784) (j : Fin 10) : ℝ :=
  (∑ s, xs s i * ((∑ k, determ (ys s) k) * prob w b (xs s) j - determ (ys s) j)) /
    ((n : ℝ) * 10)

/-- Closed form of `∂ loss / ∂ bias j`. -/
def dlossdB (n : ℕ) (xs : Fin n → Fin 784 → ℝ) (ys : Fin n → ℕ)
    (w : Fin 784 → Fin 10 → ℝ) (b : Fin 10 → ℝ) (j : Fin 10) : ℝ :=
  (∑ s, ((∑ k, determ (ys s) k) * prob w b (xs s) j - determ (ys s) j)) /
    ((n : ℝ) * 10)

/-- The fixed step size of `elementary_training`: `learning_rate = .1`. -/
def learning_rate : ℝ := 0.1

/-- The weights after `weights.assign(weights - η * grad)`, the plain
gradient-descent update of `elementary_training` with step size `η`. -/
def updateW (η : ℝ) (n : ℕ) (xs : Fin n → Fin 784 → ℝ) (ys : Fin n → ℕ)
    (w : Fin 784 → Fin 10 → ℝ) (b : Fin 10 → ℝ) : Fin 784 → Fin 10 → ℝ :=
  fun i j => w i j - η * dlossdW n xs ys w b i j

/-- The bias after `bias.assign(bias - η * grad)`. -/
def updateB (η : ℝ) (n : ℕ) (xs : Fin n → Fin 784 → ℝ) (ys : Fin n → ℕ)
    (w : Fin 784 → Fin 10 → ℝ) (b : Fin 10 → ℝ) : Fin 10 → ℝ :=
  fun j => b j - η * dlossdB n xs ys w b j

/-! The prediction, the `evaluate` function and the training loop. -/

open Classical in
/-- `tf.argmax` along the class axis: the first (smallest) index whose
value is maximal. -/
def argmax (f : Fin 10 → ℝ) : Fin 10 :=
  (Finset.univ.filter fun k => ∀ j, f j ≤ f k).min' (by
    obtain ⟨k, -, hk⟩ :=
      Finset.exists_max_image (Finset.univ : Finset (Fin 10)) f ⟨0, Finset.mem_univ 0⟩
    exact ⟨k, Finset.mem_filter.mpr
      ⟨Finset.mem_univ k, fun j => hk j (Finset.mem_univ j)⟩⟩)

/-- `pred = tf.argmax(log_prob, axis=1)`: the predicted digit of one sample. -/
def pred (w : Fin 784 → Fin 10 → ℝ) (b : Fin 10 → ℝ) (x : Fin 784 → ℝ) : Fin 10 :=
  argmax (log_prob w b x)

/-- The row-major `np.reshape` of one `28 × 28 × 1` test image to the
`784`-vector shape of the input placeholder, as done inside `evaluate`. -/
def flattenImg (img : Fin 28 → Fin 28 → ℝ) (i : Fin 784) : ℝ :=
  img ⟨(i : ℕ) / 28, by omega⟩ ⟨(i : ℕ) % 28, by omega⟩

/-- `evaluate`: reshape the held-out images to the placeholder shape,
run the prediction tensor, and return `np.mean(result == test_labels)`. -/
def evaluate (m : ℕ) (w : Fin 784 → Fin 10 → ℝ) (b : Fin 10 → ℝ)
    (testImages : Fin m → Fin 28 → Fin 28 → ℝ) (testLabels : Fin m → ℕ) : ℝ :=
  (∑ s, if (pred w b (flattenImg (testImages s)) : ℕ) = testLabels s then (1 : ℝ) else 0) /
    (m : ℝ)

/-- The mutable state of the TensorFlow session: the two trainable
variables of `elementary_network`. -/
structure SessionState where
  weights : Fin 784 → Fin 10 → ℝ
  bias : Fin 10 → ℝ

/-- `session.run(update_ops, feed_dict={labels: labels_, inp: inp_})`:
one unconditional optimizer step on a batch of 128 samples, at the
code's fixed `learning_rate`. -/
def runUpdateOps (st : SessionState) (xs : Fin 128 → Fin 784 → ℝ)
    (ys : Fin 128 → ℕ) : SessionState :=
  ⟨updateW learning_rate 128 xs ys st.weights st.bias,
   updateB learning_rate 128 xs ys st.weights st.bias⟩

/-- A call `evaluate(pred, inp)` as a session-state transformer: it runs
only the prediction tensor (no assignment op), so it returns the metric
together with the session state it leaves behind. -/
def runEvaluate (m : ℕ) (st : SessionState) (testImages : Fin m → Fin 28 → Fin 28 → ℝ)
    (testLabels : Fin m → ℕ) : ℝ × SessionState :=
  (evaluate m st.weights st.bias testImages testLabels, st)

/-- One iteration of the training loop at index `i`: draw batch `i`, run
the update ops, and every 1000th iteration print (append to the log) the
held-out accuracy of the state left by the `evaluate` call. -/
def trainStep (m : ℕ) (batchX : ℕ → Fin 128 → Fin 784 → ℝ) (batchY : ℕ → Fin 128 → ℕ)
    (testImages : Fin m → Fin 28 → Fin 28 → ℝ) (testLabels : Fin m → ℕ)
    (i : ℕ) (st : SessionState × List ℝ) : SessionState × List ℝ :=
  let s2 := runUpdateOps st.1 (batchX i) (batchY i)
  if i % 1000 = 0 then
    let r := runEvaluate m s2 testImages testLabels
    (r.2, st.2 ++ [r.1])
  else
    (s2, st.2)

/-- `for i in range(N)`: run `rem` remaining iterations starting at
iteration index `i`.  The loop body is `trainStep`; there is no other
exit. -/
def trainLoop (m : ℕ) (batchX : ℕ → Fin 128 → Fin 784 → ℝ) (batchY : ℕ → Fin 128 → ℕ)
    (testImages : Fin m → Fin 28 → Fin 28 → ℝ) (testLabels : Fin m → ℕ) :
    ℕ → ℕ → SessionState × List ℝ → SessionState × List ℝ
  | 0, _, st => st
  | Nat.succ rem, i, st =>
      trainLoop m batchX batchY testImages testLabels rem (i + 1)
        (trainStep m batchX batchY testImages testLabels i st)

/-- The parameter state produced by one `trainStep` is always the one
update applied to the incoming state, whichever print branch is taken. -/
theorem trainStep_fst (m : ℕ) (batchX : ℕ → Fin 128 → Fin 784 → ℝ)
    (batchY : ℕ → Fin 128 → ℕ) (testImages : Fin m → Fin 28 → Fin 28 → ℝ)
    (testLabels : Fin m → ℕ) (i : ℕ) (st : SessionState × List ℝ) :
    (trainStep m batchX batchY testImages testLabels i st).1 =
      runUpdateOps st.1 (batchX i) (batchY i) := by
  unfold trainStep runEvaluate
  split <;> rfl

/-- Helper for the loop claim: starting at index `i`, `rem` iterations
apply exactly the updates for indices `i, i+1, …, i+rem-1`, in order. -/
theorem trainLoop_fst_range (m : ℕ) (batchX : ℕ → Fin 128 → Fin 784 → ℝ)
    (batchY : ℕ → Fin 128 → ℕ) (testImages : Fin m → Fin 28 → Fin 28 → ℝ)
    (testLabels : Fin m → ℕ) :
    ∀ (rem i : ℕ) (st : SessionState × List ℝ),
      (trainLoop m batchX batchY testImages testLabels rem i st).1 =
        (List.range' i rem).foldl (fun s j => runUpdateOps s (batchX j) (batchY j)) st.1 := by
  intro rem
  induction rem with
  | zero => intro i st; rfl
  | succ r ih =>
      intro i st
      rw [trainLoop, ih, List.range'_succ, List.foldl_cons, trainStep_fst]

/-- C3: the training loop run with iteration budget `N` performs exactly
the `N` unconditional optimizer steps for batches `0, …, N-1`, in order,
and nothing else decides the parameter trajectory — there is no
convergence check, early stop or divergence test.  (`List.range N` has
length `N`, so the fold is exactly `N` steps, and the loop, a total
function, terminates.) -/
theorem trainLoop_exactly_N_steps (m N : ℕ) (batchX : ℕ → Fin 128 → Fin 784 → ℝ)
    (batchY : ℕ → Fin 128 → ℕ) (testImages : Fin m → Fin 28 → Fin 28 → ℝ)
    (testLabels : Fin m → ℕ) (s0 : SessionState) (log0 : List ℝ) :
    (trainLoop m batchX batchY testImages testLabels N 0 (s0, log0)).1 =
      (List.range N).foldl (fun s j => runUpdateOps s (batchX j) (batchY j)) s0 ∧
    (List.range N).length = N := by
  refine ⟨?_, List.length_range N⟩
  rw [List.range_eq_range']
  exact trainLoop_fst_range m batchX batchY testImages testLabels N 0 (s0, log0)

/-- C4: `evaluate` is read-only with respect to the parameter state: the
session state after a call equals the state before it, so interposing an
`evaluate` call anywhere leaves a subsequent training run unchanged. -/
theorem evaluate_preserves_state (m m2 N : ℕ) (st : SessionState)
    (testImages : Fin m → Fin 28 → Fin 28 → ℝ) (testLabels : Fin m → ℕ)
    (batchX : ℕ → Fin 128 → Fin 784 → ℝ) (batchY : ℕ → Fin 128 → ℕ)
    (testImages2 : Fin m2 → Fin 28 → Fin 28 → ℝ) (testLabels2 : Fin m2 → ℕ)
    (log : List ℝ) :
    (runEvaluate m st testImages testLabels).2 = st ∧
    trainLoop m2 batchX batchY testImages2 testLabels2 N 0
        ((runEvaluate m st testImages testLabels).2, log) =
      trainLoop m2 batchX batchY testImages2 testLabels2 N 0 (st, log) :=
  ⟨rfl, rfl⟩

/-- C5: `evaluate` returns the number of held-out samples whose
predicted class equals the true label divided by the number of held-out
samples, a value in `[0, 1]`. -/
theorem evaluate_eq_fraction_correct (m : ℕ) (w : Fin 784 → Fin 10 → ℝ)
    (b : Fin 10 → ℝ) (testImages : Fin m → Fin 28 → Fin 28 → ℝ)
    (testLabels : Fin m → ℕ) :
    evaluate m w b testImages testLabels =
      ((Finset.univ.filter fun s =>
          (pred w b (flattenImg (testImages s)) : ℕ) = testLabels s).card : ℝ) / (m : ℝ) ∧
    0 ≤ evaluate m w b testImages testLabels ∧
    evaluate m w b testImages testLabels ≤ 1 := by
  have hcard : evaluate m w b testImages testLabels =
      ((Finset.univ.filter fun s =>
          (pred w b (flattenImg (testImages s)) : ℕ) = testLabels s).card : ℝ) / (m : ℝ) := by
    rw [evaluate, Finset.sum_boole]
  refine ⟨hcard, ?_, ?_⟩
  · rw [hcard]; positivity
  · rw [hcard]
    rcases Nat.eq_zero_or_pos m with hm | hm
    · subst hm; simp
    · rw [div_le_one (by exact_mod_cast hm)]
      exact_mod_cast le_trans (Finset.card_filter_le _ _) (by simp)

/-! Correctness of the closed-form gradient: `dlossdW` and `dlossdB` are
the partial derivatives of `loss`, which is what `tf.gradients` computes
for `elementary_training`. -/

/-- The objective written with the log-normalizer explicit. -/
theorem loss_eq_lin_log (n : ℕ) (xs : Fin n → Fin 784 → ℝ) (ys : Fin n → ℕ)
    (w : Fin 784 → Fin 10 → ℝ) (b : Fin 10 → ℝ) :
    loss n xs ys w b =
      -((∑ s, ∑ k, determ (ys s) k *
          (lin w b (xs s) k - Real.log (∑ q, Real.exp (lin w b (xs s) q)))) /
        ((n : ℝ) * 10)) := by
  rw [loss]
  congr 2
  refine Finset.sum_congr rfl fun s _ => Finset.sum_congr rfl fun k _ => ?_
  rw [log_prob_eq]
  rfl

theorem sum_mul_ite (g : Fin 10 → ℝ) (c : ℝ) (j : Fin 10) :
    ∑ q, g q * (if q = j then c else 0) = g j * c := by
  have h : ∀ q : Fin 10, g q * (if q = j then c else 0) =
      if q = j then g q * c else 0 := by
    intro q; split <;> ring
  rw [Finset.sum_congr rfl fun q _ => h q, Finset.sum_ite_eq' Finset.univ j]
  simp

theorem sum_onehot_mul (d : Fin 10 → ℝ) (c e : ℝ) (j : Fin 10) :
    ∑ k, d k * ((if k = j then c else 0) - e) = d j * c - (∑ k, d k) * e := by
  have h : ∀ k : Fin 10, d k * ((if k = j then c else 0) - e) =
      (if k = j then d k * c else 0) - d k * e := by
    intro k; split <;> ring
  rw [Finset.sum_congr rfl fun k _ => h k, Finset.sum_sub_distrib,
    Finset.sum_ite_eq' Finset.univ j, ← Finset.sum_mul]
  simp

/-- `w` with entry `(i, j)` replaced by `t`, all other entries kept. -/
def updEntryW (w : Fin 784 → Fin 10 → ℝ) (i : Fin 784) (j : Fin 10) (t : ℝ) :
    Fin 784 → Fin 10 → ℝ :=
  Function.update w i (Function.update (w i) j t)

/-- Perturbing weight entry `(i, j)` moves every activation affinely. -/
theorem lin_updEntryW (w : Fin 784 → Fin 10 → ℝ) (b : Fin 10 → ℝ) (i : Fin 784)
    (j : Fin 10) (t : ℝ) (x : Fin 784 → ℝ) (k : Fin 10) :
    lin (updEntryW w i j t) b x k =
      (lin w b x k - (if k = j then x i * w i j else 0)) +
        t * (if k = j then x i else 0) := by
  unfold lin updEntryW
  have h : ∀ i' : Fin 784,
      x i' * Function.update w i (Function.update (w i) j t) i' k =
        x i' * w i' k +
          (if i' = i then (if k = j then x i * (t - w i j) else 0) else 0) := by
    intro i'
    by_cases hi : i' = i
    · subst hi
      by_cases hk : k = j
      · subst hk
        rw [Function.update_same, Function.update_same, if_pos rfl, if_pos rfl]
        ring
      · rw [Function.update_same, Function.update_noteq hk, if_pos rfl, if_neg hk]
        ring
    · rw [Function.update_noteq hi, if_neg hi]
      ring
  rw [Finset.sum_congr rfl fun i' _ => h i', Finset.sum_add_distrib,
    Finset.sum_ite_eq' Finset.univ i]
  simp only [Finset.mem_univ, if_true]
  by_cases hk : k = j
  · subst hk; simp only [if_true]; ring
  · simp only [hk, if_false]; ring

/-- Perturbing bias entry `j` moves every activation affinely. -/
theorem lin_updBias (w : Fin 784 → Fin 10 → ℝ) (b : Fin 10 → ℝ) (j : Fin 10)
    (t : ℝ) (x : Fin 784 → ℝ) (k : Fin 10) :
    lin w (Function.update b j t) x k =
      (lin w b x k - (if k = j then b j else 0)) + t * (if k = j then 1 else 0) := by
  unfold lin
  by_cases hk : k = j
  · subst hk; simp only [Function.update_same, if_true]; ring
  · simp only [Function.update_noteq hk, hk, if_false]; ring

/-- Master lemma: if every pre-softmax activation varies affinely in `t`
as `A s k + t * V s k`, the objective is differentiable in `t` with the
stated derivative. -/
theorem hasDerivAt_loss_affine (n : ℕ) (ys : Fin n → ℕ)
    (A V : Fin n → Fin 10 → ℝ) (t0 : ℝ) :
    HasDerivAt
      (fun t => -((∑ s, ∑ k, determ (ys s) k *
          ((A s k + t * V s k) -
            Real.log (∑ q, Real.exp (A s q + t * V s q)))) / ((n : ℝ) * 10)))
      (-((∑ s, ∑ k, determ (ys s) k *
          (V s k -
            (∑ q, Real.exp (A s q + t0 * V s q) * V s q) /
              (∑ q, Real.exp (A s q + t0 * V s q)))) / ((n : ℝ) * 10)))
      t0 := by
  have hlin : ∀ (s : Fin n) (k : Fin 10),
      HasDerivAt (fun t => A s k + t * V s k) (V s k) t0 := by
    intro s k
    simpa using ((hasDerivAt_id t0).mul_const (V s k)).const_add (A s k)
  have hZ : ∀ s : Fin n,
      HasDerivAt (fun t => ∑ q, Real.exp (A s q + t * V s q))
        (∑ q, Real.exp (A s q + t0 * V s q) * V s q) t0 := by
    intro s
    exact HasDerivAt.sum fun q _ => (hlin s q).exp
  have hZpos : ∀ s : Fin n, (0 : ℝ) < ∑ q, Real.exp (A s q + t0 * V s q) :=
    fun s => Finset.sum_pos (fun q _ => Real.exp_pos _) Finset.univ_nonempty
  have hterm : ∀ (s : Fin n) (k : Fin 10),
      HasDerivAt
        (fun t => determ (ys s) k *
          ((A s k + t * V s k) - Real.log (∑ q, Real.exp (A s q + t * V s q))))
        (determ (ys s) k *
          (V s k - (∑ q, Real.exp (A s q + t0 * V s q) * V s q) /
            (∑ q, Real.exp (A s q + t0 * V s q)))) t0 :=
    fun s k => ((hlin s k).sub ((hZ s).log (hZpos s).ne')).const_mul _
  have hsum : HasDerivAt
      (fun t => ∑ s, ∑ k, determ (ys s) k *
        ((A s k + t * V s k) - Real.log (∑ q, Real.exp (A s q + t * V s q))))
      (∑ s, ∑ k, determ (ys s) k *
        (V s k - (∑ q, Real.exp (A s q + t0 * V s q) * V s q) /
          (∑ q, Real.exp (A s q + t0 * V s q)))) t0 :=
    HasDerivAt.sum fun s _ => HasDerivAt.sum fun k _ => hterm s k
  exact (hsum.div_const _).neg

/-- `dlossdW i j` is the partial derivative of the objective in the
weight entry `(i, j)`. -/
theorem hasDerivAt_loss_W (n : ℕ) (xs : Fin n → Fin 784 → ℝ) (ys : Fin n → ℕ)
    (w : Fin 784 → Fin 10 → ℝ) (b : Fin 10 → ℝ) (i : Fin 784) (j : Fin 10) :
    HasDerivAt (fun t => loss n xs ys (updEntryW w i j t) b)
      (dlossdW n xs ys w b i j) (w i j) := by
  have hA : ∀ (s : Fin n) (q : Fin 10),
      (lin w b (xs s) q - (if q = j then xs s i * w i j else 0)) +
          w i j * (if q = j then xs s i else 0) = lin w b (xs s) q := by
    intro s q; split <;> ring
  have hmaster := hasDerivAt_loss_affine n ys
    (fun s k => lin w b (xs s) k - (if k = j then xs s i * w i j else 0))
    (fun s k => if k = j then xs s i else 0) (w i j)
  simp only [hA] at hmaster
  have hfun : (fun t => loss n xs ys (updEntryW w i j t) b) =
      (fun t => -((∑ s, ∑ k, determ (ys s) k *
          (((lin w b (xs s) k - (if k = j then xs s i * w i j else 0)) +
              t * (if k = j then xs s i else 0)) -
            Real.log (∑ q, Real.exp
              ((lin w b (xs s) q - (if q = j then xs s i * w i j else 0)) +
                t * (if q = j then xs s i else 0))))) / ((n : ℝ) * 10))) := by
    funext t
    rw [loss_eq_lin_log]
    simp only [lin_updEntryW]
  rw [hfun]
  have hd : (-((∑ s, ∑ k, determ (ys s) k *
      ((if k = j then xs s i else 0) -
        (∑ q, Real.exp (lin w b (xs s) q) * (if q = j then xs s i else 0)) /
          (∑ q, Real.exp (lin w b (xs s) q)))) / ((n : ℝ) * 10))) =
      dlossdW n xs ys w b i j := by
    have hz : ∀ s : Fin n, (∑ q, Real.exp (lin w b (xs s) q)) = Z w b (xs s) := by
      intro s; simp [Z, elin]
    have hnum : ∀ s : Fin n,
        (∑ q, Real.exp (lin w b (xs s) q) * (if q = j then xs s i else 0)) =
          Real.exp (lin w b (xs s) j) * xs s i :=
      fun s => sum_mul_ite _ _ j
    simp only [hnum, hz]
    rw [dlossdW, ← neg_div, ← Finset.sum_neg_distrib]
    congr 1
    refine Finset.sum_congr rfl fun s _ => ?_
    rw [sum_onehot_mul]
    simp only [prob, elin]
    ring
  exact hd ▸ hmaster

/-- `dlossdB j` is the partial derivative of the objective in the bias
entry `j`. -/
theorem hasDerivAt_loss_B (n : ℕ) (xs : Fin n → Fin 784 → ℝ) (ys : Fin n → ℕ)
    (w : Fin 784 → Fin 10 → ℝ) (b : Fin 10 → ℝ) (j : Fin 10) :
    HasDerivAt (fun t => loss n xs ys w (Function.update b j t))
      (dlossdB n xs ys w b j) (b j) := by
  have hA : ∀ (s : Fin n) (q : Fin 10),
      (lin w b (xs s) q - (if q = j then b j else 0)) +
          b j * (if q = j then (1 : ℝ) else 0) = lin w b (xs s) q := by
    intro s q; split <;> ring
  have hmaster := hasDerivAt_loss_affine n ys
    (fun s k => lin w b (xs s) k - (if k = j then b j else 0))
    (fun s k => if k = j then (1 : ℝ) else 0) (b j)
  simp only [hA] at hmaster
  have hfun : (fun t => loss n xs ys w (Function.update b j t)) =
      (fun t => -((∑ s, ∑ k, determ (ys s) k *
          (((lin w b (xs s) k - (if k = j then b j else 0)) +
              t * (if k = j then (1 : ℝ) else 0)) -
            Real.log (∑ q, Real.exp
              ((lin w b (xs s) q - (if q = j then b j else 0)) +
                t * (if q = j then (1 : ℝ) else 0))))) / ((n : ℝ) * 10))) := by
    funext t
    rw [loss_eq_lin_log]
    simp only [lin_updBias]
  rw [hfun]
  have hd : (-((∑ s, ∑ k, determ (ys s) k *
      ((if k = j then (1 : ℝ) else 0) -
        (∑ q, Real.exp (lin w b (xs s) q) * (if q = j then (1 : ℝ) else 0)) /
          (∑ q, Real.exp (lin w b (xs s) q)))) / ((n : ℝ) * 10))) =
      dlossdB n xs ys w b j := by
    have hz : ∀ s : Fin n, (∑ q, Real.exp (lin w b (xs s) q)) = Z w b (xs s) := by
      intro s; simp [Z, elin]
    have hnum : ∀ s : Fin n,
        (∑ q, Real.exp (lin w b (xs s) q) * (if q = j then (1 : ℝ) else 0)) =
          Real.exp (lin w b (xs s) j) * 1 :=
      fun s => sum_mul_ite _ _ j
    simp only [hnum, hz]
    rw [dlossdB, ← neg_div, ← Finset.sum_neg_distrib]
    congr 1
    refine Finset.sum_congr rfl fun s _ => ?_
    rw [sum_onehot_mul]
    simp only [prob, elin]
    ring
  exact hd ▸ hmaster

/-- C2: for every step size, every parameter state and every batch, one
optimizer step replaces each parameter entry by exactly the old value
minus the step size times the partial derivative of the objective there
(`dlossdW`/`dlossdB` being those derivatives, as the `HasDerivAt`
conjuncts state). -/
theorem update_is_gradient_step (η : ℝ) (n : ℕ) (xs : Fin n → Fin 784 → ℝ)
    (ys : Fin n → ℕ) (w : Fin 784 → Fin 10 → ℝ) (b : Fin 10 → ℝ) :
    (∀ i j, updateW η n xs ys w b i j = w i j - η * dlossdW n xs ys w b i j) ∧
    (∀ j, updateB η n xs ys w b j = b j - η * dlossdB n xs ys w b j) ∧
    (∀ i j, HasDerivAt (fun t => loss n xs ys (updEntryW w i j t) b)
      (dlossdW n xs ys w b i j) (w i j)) ∧
    (∀ j, HasDerivAt (fun t => loss n xs ys w (Function.update b j t))
      (dlossdB n xs ys w b j) (b j)) :=
  ⟨fun _ _ => rfl, fun _ => rfl,
    hasDerivAt_loss_W n xs ys w b, hasDerivAt_loss_B n xs ys w b⟩

/-! Strict descent: along the negative gradient the objective has
derivative `-(‖∇W‖² + ‖∇b‖²)`, so a small enough step size does not
increase it. -/

/-- Moving all parameters along a direction moves every activation
affinely. -/
theorem lin_descent (w : Fin 784 → Fin 10 → ℝ) (b : Fin 10 → ℝ)
    (gW : Fin 784 → Fin 10 → ℝ) (gB : Fin 10 → ℝ) (t : ℝ) (x : Fin 784 → ℝ)
    (k : Fin 10) :
    lin (fun i j => w i j - t * gW i j) (fun j => b j - t * gB j) x k =
      lin w b x k + t * -((∑ i, x i * gW i k) + gB k) := by
  unfold lin
  have h : ∀ i, x i * (w i k - t * gW i k) = x i * w i k - t * (x i * gW i k) :=
    fun i => by ring
  rw [Finset.sum_congr rfl fun i _ => h i, Finset.sum_sub_distrib, ← Finset.mul_sum]
  ring

theorem inner_residual (d e U : Fin 10 → ℝ) :
    ∑ k, d k * (-(U k) - (∑ q, e q * -(U q)) / (∑ q, e q)) =
      ∑ k, ((∑ q, d q) * (e k / (∑ q, e q)) - d k) * U k := by
  have h1 : (∑ q, e q * -(U q)) = -(∑ q, e q * U q) := by
    rw [← Finset.sum_neg_distrib]
    exact Finset.sum_congr rfl fun q _ => by ring
  rw [h1]
  have h2 : ∀ k, d k * (-(U k) - (-(∑ q, e q * U q)) / (∑ q, e q)) =
      d k * ((∑ q, e q * U q) / (∑ q, e q)) - d k * U k := by
    intro k; ring
  have h3 : ∀ k, ((∑ q, d q) * (e k / (∑ q, e q)) - d k) * U k =
      (∑ q, d q) * ((e k * U k) / (∑ q, e q)) - d k * U k := by
    intro k; ring
  rw [Finset.sum_congr rfl fun k _ => h2 k, Finset.sum_congr rfl fun k _ => h3 k,
    Finset.sum_sub_distrib, Finset.sum_sub_distrib, ← Finset.sum_mul,
    ← Finset.mul_sum, ← Finset.sum_div]

/-- The residual-weighted direction sum equals `n * 10` times the
squared norm of the gradient. -/
theorem descent_residual_eq (n : ℕ) (xs : Fin n → Fin 784 → ℝ) (ys : Fin n → ℕ)
    (w : Fin 784 → Fin 10 → ℝ) (b : Fin 10 → ℝ) (hc : ((n : ℝ) * 10) ≠ 0) :
    (∑ s, ∑ k, ((∑ q, determ (ys s) q) * prob w b (xs s) k - determ (ys s) k) *
        ((∑ i, xs s i * dlossdW n xs ys w b i k) + dlossdB n xs ys w b k)) =
      ((n : ℝ) * 10) *
        ((∑ i, ∑ k, dlossdW n xs ys w b i k ^ 2) +
          ∑ k, dlossdB n xs ys w b k ^ 2) := by
  have hNW : ∀ (i : Fin 784) (k : Fin 10),
      (∑ s, xs s i * ((∑ q, determ (ys s) q) * prob w b (xs s) k - determ (ys s) k)) =
        dlossdW n xs ys w b i k * ((n : ℝ) * 10) := by
    intro i k
    rw [dlossdW, div_mul_cancel₀ _ hc]
  have hNB : ∀ k : Fin 10,
      (∑ s, ((∑ q, determ (ys s) q) * prob w b (xs s) k - determ (ys s) k)) =
        dlossdB n xs ys w b k * ((n : ℝ) * 10) := by
    intro k
    rw [dlossdB, div_mul_cancel₀ _ hc]
  have expand : ∀ (s : Fin n) (k : Fin 10),
      ((∑ q, determ (ys s) q) * prob w b (xs s) k - determ (ys s) k) *
          ((∑ i, xs s i * dlossdW n xs ys w b i k) + dlossdB n xs ys w b k) =
        (∑ i, (xs s i * ((∑ q, determ (ys s) q) * prob w b (xs s) k - determ (ys s) k)) *
            dlossdW n xs ys w b i k) +
          ((∑ q, determ (ys s) q) * prob w b (xs s) k - determ (ys s) k) *
            dlossdB n xs ys w b k := by
    intro s k
    have hterm : ∀ i : Fin 784,
        ((∑ q, determ (ys s) q) * prob w b (xs s) k - determ (ys s) k) *
            (xs s i * dlossdW n xs ys w b i k) =
          (xs s i * ((∑ q, determ (ys s) q) * prob w b (xs s) k - determ (ys s) k)) *
            dlossdW n xs ys w b i k :=
      fun i => by ring
    rw [mul_add, Finset.mul_sum, Finset.sum_congr rfl fun i _ => hterm i]
  rw [Finset.sum_congr rfl fun s _ => Finset.sum_congr rfl fun k _ => expand s k]
  simp only [Finset.sum_add_distrib]
  have hA : (∑ s, ∑ k, ∑ i,
      (xs s i * ((∑ q, determ (ys s) q) * prob w b (xs s) k - determ (ys s) k)) *
        dlossdW n xs ys w b i k) =
      ((n : ℝ) * 10) * ∑ i, ∑ k, dlossdW n xs ys w b i k ^ 2 := by
    rw [Finset.sum_comm]
    rw [Finset.sum_congr rfl fun k _ => Finset.sum_comm]
    have hik : ∀ (k : Fin 10) (i : Fin 784),
        (∑ s, (xs s i * ((∑ q, determ (ys s) q) * prob w b (xs s) k - determ (ys s) k)) *
            dlossdW n xs ys w b i k) =
          ((n : ℝ) * 10) * dlossdW n xs ys w b i k ^ 2 := by
      intro k i
      rw [← Finset.sum_mul, hNW]
      ring
    rw [Finset.sum_congr rfl fun k _ => Finset.sum_congr rfl fun i _ => hik k i]
    rw [Finset.sum_comm]
    simp only [← Finset.mul_sum]
  have hB : (∑ s, ∑ k,
      ((∑ q, determ (ys s) q) * prob w b (xs s) k - determ (ys s) k) *
        dlossdB n xs ys w b k) =
      ((n : ℝ) * 10) * ∑ k, dlossdB n xs ys w b k ^ 2 := by
    rw [Finset.sum_comm]
    have hk : ∀ k : Fin 10,
        (∑ s, ((∑ q, determ (ys s) q) * prob w b (xs s) k - determ (ys s) k) *
            dlossdB n xs ys w b k) =
          ((n : ℝ) * 10) * dlossdB n xs ys w b k ^ 2 := by
      intro k
      rw [← Finset.sum_mul, hNB]
      ring
    rw [Finset.sum_congr rfl fun k _ => hk k, ← Finset.mul_sum]
  rw [hA, hB, mul_add]

/-- Along the negative-gradient path the objective has derivative equal
to minus the squared norm of the gradient. -/
theorem hasDerivAt_loss_descent (n : ℕ) (xs : Fin n → Fin 784 → ℝ) (ys : Fin n → ℕ)
    (w : Fin 784 → Fin 10 → ℝ) (b : Fin 10 → ℝ) (hc : ((n : ℝ) * 10) ≠ 0) :
    HasDerivAt
      (fun t => loss n xs ys
        (fun i j => w i j - t * dlossdW n xs ys w b i j)
        (fun j => b j - t * dlossdB n xs ys w b j))
      (-((∑ i, ∑ k, dlossdW n xs ys w b i k ^ 2) +
          ∑ k, dlossdB n xs ys w b k ^ 2)) 0 := by
  have hmaster := hasDerivAt_loss_affine n ys
    (fun s k => lin w b (xs s) k)
    (fun s k => -((∑ i, xs s i * dlossdW n xs ys w b i k) + dlossdB n xs ys w b k)) 0
  simp only [zero_mul, add_zero] at hmaster
  have hfun : (fun t => loss n xs ys
      (fun i j => w i j - t * dlossdW n xs ys w b i j)
      (fun j => b j - t * dlossdB n xs ys w b j)) =
      (fun t => -((∑ s, ∑ k, determ (ys s) k *
        ((lin w b (xs s) k +
            t * -((∑ i, xs s i * dlossdW n xs ys w b i k) + dlossdB n xs ys w b k)) -
          Real.log (∑ q, Real.exp (lin w b (xs s) q +
            t * -((∑ i, xs s i * dlossdW n xs ys w b i q) +
              dlossdB n xs ys w b q))))) / ((n : ℝ) * 10))) := by
    funext t
    rw [loss_eq_lin_log]
    simp only [lin_descent]
  rw [hfun]
  have hd : (-((∑ s, ∑ k, determ (ys s) k *
      (-((∑ i, xs s i * dlossdW n xs ys w b i k) + dlossdB n xs ys w b k) -
        (∑ q, Real.exp (lin w b (xs s) q) *
          -((∑ i, xs s i * dlossdW n xs ys w b i q) + dlossdB n xs ys w b q)) /
          (∑ q, Real.exp (lin w b (xs s) q)))) / ((n : ℝ) * 10))) =
      -((∑ i, ∑ k, dlossdW n xs ys w b i k ^ 2) +
          ∑ k, dlossdB n xs ys w b k ^ 2) := by
    have hinner : ∀ s : Fin n,
        (∑ k, determ (ys s) k *
          (-((∑ i, xs s i * dlossdW n xs ys w b i k) + dlossdB n xs ys w b k) -
            (∑ q, Real.exp (lin w b (xs s) q) *
              -((∑ i, xs s i * dlossdW n xs ys w b i q) + dlossdB n xs ys w b q)) /
              (∑ q, Real.exp (lin w b (xs s) q)))) =
          ∑ k, ((∑ q, determ (ys s) q) *
              (Real.exp (lin w b (xs s) k) / (∑ q, Real.exp (lin w b (xs s) q))) -
            determ (ys s) k) *
            ((∑ i, xs s i * dlossdW n xs ys w b i k) + dlossdB n xs ys w b k) :=
      fun s => inner_residual (determ (ys s)) (fun q => Real.exp (lin w b (xs s) q))
        (fun k => (∑ i, xs s i * dlossdW n xs ys w b i k) + dlossdB n xs ys w b k)
    rw [Finset.sum_congr rfl fun s _ => hinner s]
    have hprob : ∀ (s : Fin n) (k : Fin 10),
        Real.exp (lin w b (xs s) k) / (∑ q, Real.exp (lin w b (xs s) q)) =
          prob w b (xs s) k := by
      intro s k; rfl
    simp only [hprob]
    rw [descent_residual_eq n xs ys w b hc, mul_comm, mul_div_assoc,
      div_self hc, mul_one]
  exact hd ▸ hmaster

/-- Every one-hot row sums to at most `1` (to `0` for an out-of-range
label, to `1` otherwise). -/
theorem determ_sum_le_one (l : ℕ) : (∑ k, determ l k) ≤ 1 := by
  by_cases hl : l < 10
  · rw [determ_sum_eq_one l hl]
  · have hz : ∀ k : Fin 10, determ l k = 0 := by
      intro k
      have hk : l ≠ (k : ℕ) := by have := k.isLt; omega
      simp [determ, hk]
    rw [Finset.sum_congr rfl fun k _ => hz k]
    simp

/-- The objective along the negative-gradient path, as a function of the
step size. -/
def pathVal (n : ℕ) (ys : Fin n → ℕ) (A V : Fin n → Fin 10 → ℝ) (t : ℝ) : ℝ :=
  -((∑ s, ∑ k, determ (ys s) k *
      ((A s k + t * V s k) - Real.log (∑ q, Real.exp (A s q + t * V s q)))) /
    ((n : ℝ) * 10))

/-- First derivative of `pathVal` in the step size. -/
def pathDeriv (n : ℕ) (ys : Fin n → ℕ) (A V : Fin n → Fin 10 → ℝ) (u : ℝ) : ℝ :=
  -((∑ s, ∑ k, determ (ys s) k *
      (V s k - (∑ q, Real.exp (A s q + u * V s q) * V s q) /
        (∑ q, Real.exp (A s q + u * V s q)))) / ((n : ℝ) * 10))

/-- The per-sample curvature term: the variance-like quotient appearing
in the second derivative of log-sum-exp along a direction. -/
def quotTerm (e V : Fin 10 → ℝ) : ℝ :=
  ((∑ q, e q * V q * V q) * (∑ q, e q) - (∑ q, e q * V q) * (∑ q, e q * V q)) /
    (∑ q, e q) ^ 2

/-- Second derivative of `pathVal` in the step size. -/
def pathDeriv2 (n : ℕ) (ys : Fin n → ℕ) (A V : Fin n → Fin 10 → ℝ) (u : ℝ) : ℝ :=
  -((∑ s, ∑ k, determ (ys s) k *
      -(quotTerm (fun q => Real.exp (A s q + u * V s q)) (V s))) / ((n : ℝ) * 10))

/-- The first derivative of the path objective, at every step size. -/
theorem hasDerivAt_pathVal (n : ℕ) (ys : Fin n → ℕ) (A V : Fin n → Fin 10 → ℝ)
    (t0 : ℝ) : HasDerivAt (pathVal n ys A V) (pathDeriv n ys A V t0) t0 :=
  hasDerivAt_loss_affine n ys A V t0

/-- The second derivative of the path objective, at every step size. -/
theorem hasDerivAt_pathDeriv (n : ℕ) (ys : Fin n → ℕ) (A V : Fin n → Fin 10 → ℝ)
    (t0 : ℝ) : HasDerivAt (pathDeriv n ys A V) (pathDeriv2 n ys A V t0) t0 := by
  have hlin : ∀ (s : Fin n) (q : Fin 10),
      HasDerivAt (fun t => A s q + t * V s q) (V s q) t0 := by
    intro s q
    simpa using ((hasDerivAt_id t0).mul_const (V s q)).const_add (A s q)
  have hZ : ∀ s : Fin n,
      HasDerivAt (fun t => ∑ q, Real.exp (A s q + t * V s q))
        (∑ q, Real.exp (A s q + t0 * V s q) * V s q) t0 :=
    fun s => HasDerivAt.sum fun q _ => (hlin s q).exp
  have hN : ∀ s : Fin n,
      HasDerivAt (fun t => ∑ q, Real.exp (A s q + t * V s q) * V s q)
        (∑ q, Real.exp (A s q + t0 * V s q) * V s q * V s q) t0 :=
    fun s => HasDerivAt.sum fun q _ => (hlin s q).exp.mul_const (V s q)
  have hZpos : ∀ s : Fin n, (0 : ℝ) < ∑ q, Real.exp (A s q + t0 * V s q) :=
    fun s => Finset.sum_pos (fun q _ => Real.exp_pos _) Finset.univ_nonempty
  have hterm : ∀ (s : Fin n) (k : Fin 10),
      HasDerivAt
        (fun t => determ (ys s) k *
          (V s k - (∑ q, Real.exp (A s q + t * V s q) * V s q) /
            (∑ q, Real.exp (A s q + t * V s q))))
        (determ (ys s) k *
          -(((∑ q, Real.exp (A s q + t0 * V s q) * V s q * V s q) *
              (∑ q, Real.exp (A s q + t0 * V s q)) -
            (∑ q, Real.exp (A s q + t0 * V s q) * V s q) *
              (∑ q, Real.exp (A s q + t0 * V s q) * V s q)) /
            (∑ q, Real.exp (A s q + t0 * V s q)) ^ 2)) t0 :=
    fun s k => (((hN s).div (hZ s) (hZpos s).ne').const_sub (V s k)).const_mul _
  exact ((HasDerivAt.sum fun s _ => HasDerivAt.sum fun k _ => hterm s k).div_const _).neg

/-- The curvature quotient is at most the direction's sum of squares:
`(E[V²]·Z − E[V]²)/Z²` dropping the negative part and bounding each
softmax weight by one. -/
theorem quotTerm_le_sum_sq (e V : Fin 10 → ℝ) (he : ∀ q, 0 < e q) :
    quotTerm e V ≤ ∑ q, V q ^ 2 := by
  have hZ : (0 : ℝ) < ∑ q, e q := Finset.sum_pos (fun q _ => he q) Finset.univ_nonempty
  have h1 : (∑ q, e q * V q * V q) ≤ (∑ q, V q ^ 2) * (∑ q, e q) := by
    have hterm : ∀ q : Fin 10, e q * V q * V q ≤ V q ^ 2 * (∑ r, e r) := by
      intro q
      have he_le : e q ≤ ∑ r, e r :=
        Finset.single_le_sum (fun r _ => (he r).le) (Finset.mem_univ q)
      have hsq : (0 : ℝ) ≤ V q ^ 2 := sq_nonneg _
      calc e q * V q * V q = V q ^ 2 * e q := by ring
        _ ≤ V q ^ 2 * (∑ r, e r) := mul_le_mul_of_nonneg_left he_le hsq
    calc ∑ q, e q * V q * V q ≤ ∑ q, V q ^ 2 * (∑ r, e r) :=
          Finset.sum_le_sum fun q _ => hterm q
      _ = (∑ q, V q ^ 2) * (∑ r, e r) := by rw [← Finset.sum_mul]
  have h2 : (0 : ℝ) ≤ (∑ q, e q * V q) * (∑ q, e q * V q) := mul_self_nonneg _
  rw [quotTerm, div_le_iff₀ (by positivity)]
  calc (∑ q, e q * V q * V q) * (∑ q, e q) - (∑ q, e q * V q) * (∑ q, e q * V q)
      ≤ (∑ q, e q * V q * V q) * (∑ q, e q) := by linarith
    _ ≤ ((∑ q, V q ^ 2) * (∑ q, e q)) * (∑ q, e q) :=
        mul_le_mul_of_nonneg_right h1 hZ.le
    _ = (∑ q, V q ^ 2) * (∑ q, e q) ^ 2 := by ring

/-- Smoothness (descent lemma) for the path objective: for a nonnegative
step, the objective at the step is bounded by its first-order Taylor
expansion at `0` plus a curvature term governed by the direction's sum
of squares. -/
theorem pathVal_taylor_bound (n : ℕ) (ys : Fin n → ℕ) (A V : Fin n → Fin 10 → ℝ)
    (η : ℝ) (hη : 0 ≤ η) :
    pathVal n ys A V η ≤
      pathVal n ys A V 0 + η * pathDeriv n ys A V 0 +
        η ^ 2 * ((∑ s, ∑ k, V s k ^ 2) / ((n : ℝ) * 10)) / 2 := by
  have hcurv : ∀ u : ℝ,
      pathDeriv2 n ys A V u ≤ (∑ s, ∑ k, V s k ^ 2) / ((n : ℝ) * 10) := by
    intro u
    have e1 : ∀ s : Fin n,
        (∑ k, determ (ys s) k *
          -(quotTerm (fun q => Real.exp (A s q + u * V s q)) (V s))) =
        -((∑ k, determ (ys s) k) *
          quotTerm (fun q => Real.exp (A s q + u * V s q)) (V s)) := by
      intro s
      rw [← Finset.sum_mul, mul_neg]
    have e2 : pathDeriv2 n ys A V u =
        (∑ s, (∑ k, determ (ys s) k) *
          quotTerm (fun q => Real.exp (A s q + u * V s q)) (V s)) / ((n : ℝ) * 10) := by
      rw [pathDeriv2, Finset.sum_congr rfl fun s _ => e1 s, Finset.sum_neg_distrib,
        neg_div, neg_neg]
    rw [e2]
    have hper : ∀ s : Fin n,
        (∑ k, determ (ys s) k) *
            quotTerm (fun q => Real.exp (A s q + u * V s q)) (V s) ≤
          ∑ k, V s k ^ 2 := by
      intro s
      have hD0 : (0 : ℝ) ≤ ∑ k, determ (ys s) k :=
        Finset.sum_nonneg fun k _ => determ_nonneg _ k
      have hD1 : (∑ k, determ (ys s) k) ≤ 1 := determ_sum_le_one (ys s)
      have hQ : quotTerm (fun q => Real.exp (A s q + u * V s q)) (V s) ≤
          ∑ k, V s k ^ 2 :=
        quotTerm_le_sum_sq _ _ fun q => Real.exp_pos _
      have hV0 : (0 : ℝ) ≤ ∑ k, V s k ^ 2 := Finset.sum_nonneg fun k _ => sq_nonneg _
      calc (∑ k, determ (ys s) k) *
            quotTerm (fun q => Real.exp (A s q + u * V s q)) (V s)
          ≤ (∑ k, determ (ys s) k) * (∑ k, V s k ^ 2) :=
            mul_le_mul_of_nonneg_left hQ hD0
        _ ≤ 1 * (∑ k, V s k ^ 2) := mul_le_mul_of_nonneg_right hD1 hV0
        _ = ∑ k, V s k ^ 2 := one_mul _
    exact div_le_div_of_nonneg_right (Finset.sum_le_sum fun s _ => hper s)
      (by positivity)
  -- step 1: the first derivative grows at most linearly with the bound above
  have hκd : ∀ u : ℝ, HasDerivAt
      (fun v => pathDeriv n ys A V v - v * ((∑ s, ∑ k, V s k ^ 2) / ((n : ℝ) * 10)))
      (pathDeriv2 n ys A V u - (∑ s, ∑ k, V s k ^ 2) / ((n : ℝ) * 10)) u := by
    intro u
    have hid : HasDerivAt (fun v : ℝ => v * ((∑ s, ∑ k, V s k ^ 2) / ((n : ℝ) * 10)))
        ((∑ s, ∑ k, V s k ^ 2) / ((n : ℝ) * 10)) u := by
      simpa using (hasDerivAt_id u).mul_const ((∑ s, ∑ k, V s k ^ 2) / ((n : ℝ) * 10))
    exact (hasDerivAt_pathDeriv n ys A V u).sub hid
  have hκmono : Antitone
      (fun v => pathDeriv n ys A V v -
        v * ((∑ s, ∑ k, V s k ^ 2) / ((n : ℝ) * 10))) :=
    antitone_of_deriv_nonpos (fun u => (hκd u).differentiableAt) (fun u => by
      rw [(hκd u).deriv]
      have := hcurv u
      linarith)
  have hslope : ∀ u : ℝ, 0 ≤ u → pathDeriv n ys A V u ≤
      pathDeriv n ys A V 0 + u * ((∑ s, ∑ k, V s k ^ 2) / ((n : ℝ) * 10)) := by
    intro u hu
    have h := hκmono hu
    simp only [zero_mul, sub_zero] at h
    linarith
  -- step 2: integrate the slope bound on the nonnegative half-line
  have hρd : ∀ u : ℝ, HasDerivAt
      (fun v => pathVal n ys A V v -
        (v * pathDeriv n ys A V 0 +
          v ^ 2 * ((∑ s, ∑ k, V s k ^ 2) / ((n : ℝ) * 10)) / 2))
      (pathDeriv n ys A V u -
        (pathDeriv n ys A V 0 +
          u * ((∑ s, ∑ k, V s k ^ 2) / ((n : ℝ) * 10)))) u := by
    intro u
    have h1 : HasDerivAt (fun v : ℝ => v * pathDeriv n ys A V 0)
        (pathDeriv n ys A V 0) u := by
      simpa using (hasDerivAt_id u).mul_const (pathDeriv n ys A V 0)
    have h2 : HasDerivAt
        (fun v : ℝ => v ^ 2 * ((∑ s, ∑ k, V s k ^ 2) / ((n : ℝ) * 10)) / 2)
        (u * ((∑ s, ∑ k, V s k ^ 2) / ((n : ℝ) * 10))) u := by
      have h3 := ((hasDerivAt_pow 2 u).mul_const
        ((∑ s, ∑ k, V s k ^ 2) / ((n : ℝ) * 10))).div_const 2
      convert h3 using 1
      rw [pow_one]
      push_cast
      ring
    exact (hasDerivAt_pathVal n ys A V u).sub (h1.add h2)
  have hρmono : AntitoneOn
      (fun v => pathVal n ys A V v -
        (v * pathDeriv n ys A V 0 +
          v ^ 2 * ((∑ s, ∑ k, V s k ^ 2) / ((n : ℝ) * 10)) / 2)) (Set.Ici 0) := by
    have hdiff : Differentiable ℝ
        (fun v => pathVal n ys A V v -
          (v * pathDeriv n ys A V 0 +
            v ^ 2 * ((∑ s, ∑ k, V s k ^ 2) / ((n : ℝ) * 10)) / 2)) :=
      fun u => (hρd u).differentiableAt
    refine antitoneOn_of_deriv_nonpos (convex_Ici 0)
      hdiff.continuous.continuousOn hdiff.differentiableOn ?_
    intro u hu
    rw [interior_Ici] at hu
    have hu' : (0 : ℝ) < u := hu
    rw [(hρd u).deriv]
    have := hslope u (le_of_lt hu')
    linarith
  have hfinal := hρmono Set.left_mem_Ici (Set.mem_Ici.mpr hη) hη
  norm_num at hfinal
  linarith

/-- The squared norm of the descent direction of the activations is at
most a batch-only constant times the squared norm of the gradient
(Cauchy-Schwarz per sample and class). -/
theorem sq_dir_le (n : ℕ) (xs : Fin n → Fin 784 → ℝ) (ys : Fin n → ℕ)
    (w : Fin 784 → Fin 10 → ℝ) (b : Fin 10 → ℝ) :
    (∑ s, ∑ k, (-((∑ i, xs s i * dlossdW n xs ys w b i k) +
        dlossdB n xs ys w b k)) ^ 2) ≤
      (∑ s, 2 * (1 + ∑ i, xs s i ^ 2)) *
        ((∑ i, ∑ k, dlossdW n xs ys w b i k ^ 2) +
          ∑ k, dlossdB n xs ys w b k ^ 2) := by
  have hper : ∀ s : Fin n,
      (∑ k, (-((∑ i, xs s i * dlossdW n xs ys w b i k) +
          dlossdB n xs ys w b k)) ^ 2) ≤
        2 * (1 + ∑ i, xs s i ^ 2) *
          ((∑ i, ∑ k, dlossdW n xs ys w b i k ^ 2) +
            ∑ k, dlossdB n xs ys w b k ^ 2) := by
    intro s
    have hterm : ∀ k : Fin 10,
        (-((∑ i, xs s i * dlossdW n xs ys w b i k) + dlossdB n xs ys w b k)) ^ 2 ≤
          2 * (1 + ∑ i, xs s i ^ 2) *
            ((∑ i, dlossdW n xs ys w b i k ^ 2) + dlossdB n xs ys w b k ^ 2) := by
      intro k
      have h1 : (∑ i, xs s i * dlossdW n xs ys w b i k) ^ 2 ≤
          (∑ i, xs s i ^ 2) * (∑ i, dlossdW n xs ys w b i k ^ 2) :=
        Finset.sum_mul_sq_le_sq_mul_sq Finset.univ _ _
      have hX : (0 : ℝ) ≤ ∑ i, xs s i ^ 2 := Finset.sum_nonneg fun i _ => sq_nonneg _
      have hW : (0 : ℝ) ≤ ∑ i, dlossdW n xs ys w b i k ^ 2 :=
        Finset.sum_nonneg fun i _ => sq_nonneg _
      nlinarith [sq_nonneg ((∑ i, xs s i * dlossdW n xs ys w b i k) -
          dlossdB n xs ys w b k),
        sq_nonneg (dlossdB n xs ys w b k)]
    calc (∑ k, (-((∑ i, xs s i * dlossdW n xs ys w b i k) +
            dlossdB n xs ys w b k)) ^ 2)
        ≤ ∑ k, 2 * (1 + ∑ i, xs s i ^ 2) *
            ((∑ i, dlossdW n xs ys w b i k ^ 2) + dlossdB n xs ys w b k ^ 2) :=
          Finset.sum_le_sum fun k _ => hterm k
      _ = 2 * (1 + ∑ i, xs s i ^ 2) *
            ∑ k, ((∑ i, dlossdW n xs ys w b i k ^ 2) + dlossdB n xs ys w b k ^ 2) := by
          rw [← Finset.mul_sum]
      _ = 2 * (1 + ∑ i, xs s i ^ 2) *
            ((∑ k, ∑ i, dlossdW n xs ys w b i k ^ 2) +
              ∑ k, dlossdB n xs ys w b k ^ 2) := by
          rw [Finset.sum_add_distrib]
      _ = 2 * (1 + ∑ i, xs s i ^ 2) *
            ((∑ i, ∑ k, dlossdW n xs ys w b i k ^ 2) +
              ∑ k, dlossdB n xs ys w b k ^ 2) := by
          rw [Finset.sum_comm]
  calc (∑ s, ∑ k, (-((∑ i, xs s i * dlossdW n xs ys w b i k) +
          dlossdB n xs ys w b k)) ^ 2)
      ≤ ∑ s, 2 * (1 + ∑ i, xs s i ^ 2) *
          ((∑ i, ∑ k, dlossdW n xs ys w b i k ^ 2) +
            ∑ k, dlossdB n xs ys w b k ^ 2) :=
        Finset.sum_le_sum fun s _ => hper s
    _ = (∑ s, 2 * (1 + ∑ i, xs s i ^ 2)) *
          ((∑ i, ∑ k, dlossdW n xs ys w b i k ^ 2) +
            ∑ k, dlossdB n xs ys w b k ^ 2) := by
        rw [← Finset.sum_mul]

/-- The loss along the descent path equals the path objective with the
current activations and the negative-gradient direction. -/
theorem loss_descent_path_eq2 (n : ℕ) (xs : Fin n → Fin 784 → ℝ) (ys : Fin n → ℕ)
    (w : Fin 784 → Fin 10 → ℝ) (b : Fin 10 → ℝ) :
    (fun t => loss n xs ys (fun i j => w i j - t * dlossdW n xs ys w b i j)
      (fun j => b j - t * dlossdB n xs ys w b j)) =
    pathVal n ys (fun s k => lin w b (xs s) k)
      (fun s k => -((∑ i, xs s i * dlossdW n xs ys w b i k) +
        dlossdB n xs ys w b k)) := by
  funext t
  rw [loss_eq_lin_log]
  simp only [lin_descent]
  rfl

/-- At every step size the path objective is the loss at the stepped
parameters. -/
theorem pathVal_eq_loss_update (n : ℕ) (xs : Fin n → Fin 784 → ℝ) (ys : Fin n → ℕ)
    (w : Fin 784 → Fin 10 → ℝ) (b : Fin 10 → ℝ) (t : ℝ) :
    pathVal n ys (fun s k => lin w b (xs s) k)
      (fun s k => -((∑ i, xs s i * dlossdW n xs ys w b i k) +
        dlossdB n xs ys w b k)) t =
    loss n xs ys (fun i j => w i j - t * dlossdW n xs ys w b i j)
      (fun j => b j - t * dlossdB n xs ys w b j) :=
  (congrFun (loss_descent_path_eq2 n xs ys w b) t).symm

/-- At step `0` the path derivative is minus the squared gradient norm. -/
theorem pathDeriv_descent_zero (n : ℕ) (xs : Fin n → Fin 784 → ℝ) (ys : Fin n → ℕ)
    (w : Fin 784 → Fin 10 → ℝ) (b : Fin 10 → ℝ) (hc : ((n : ℝ) * 10) ≠ 0) :
    pathDeriv n ys (fun s k => lin w b (xs s) k)
      (fun s k => -((∑ i, xs s i * dlossdW n xs ys w b i k) +
        dlossdB n xs ys w b k)) 0 =
    -((∑ i, ∑ k, dlossdW n xs ys w b i k ^ 2) +
        ∑ k, dlossdB n xs ys w b k ^ 2) := by
  have h1 : HasDerivAt
      (pathVal n ys (fun s k => lin w b (xs s) k)
        (fun s k => -((∑ i, xs s i * dlossdW n xs ys w b i k) +
          dlossdB n xs ys w b k)))
      (pathDeriv n ys (fun s k => lin w b (xs s) k)
        (fun s k => -((∑ i, xs s i * dlossdW n xs ys w b i k) +
          dlossdB n xs ys w b k)) 0) 0 :=
    hasDerivAt_pathVal n ys (fun s k => lin w b (xs s) k)
      (fun s k => -((∑ i, xs s i * dlossdW n xs ys w b i k) +
        dlossdB n xs ys w b k)) 0
  have h2 : HasDerivAt
      (pathVal n ys (fun s k => lin w b (xs s) k)
        (fun s k => -((∑ i, xs s i * dlossdW n xs ys w b i k) +
          dlossdB n xs ys w b k)))
      (-((∑ i, ∑ k, dlossdW n xs ys w b i k ^ 2) +
          ∑ k, dlossdB n xs ys w b k ^ 2)) 0 := by
    rw [← loss_descent_path_eq2 n xs ys w b]
    exact hasDerivAt_loss_descent n xs ys w b hc
  exact h1.unique h2

/-- C8: for every batch there is one fixed, sufficiently small step size
for which a single plain gradient-descent update never increases the
objective on that batch, whatever the starting parameter state (in
particular from any non-optimal one). -/
theorem exists_fixed_step_loss_nonincreasing (n : ℕ) (xs : Fin n → Fin 784 → ℝ)
    (ys : Fin n → ℕ) :
    ∃ η : ℝ, 0 < η ∧ ∀ (w : Fin 784 → Fin 10 → ℝ) (b : Fin 10 → ℝ),
      loss n xs ys (updateW η n xs ys w b) (updateB η n xs ys w b) ≤
        loss n xs ys w b := by
  rcases Nat.eq_zero_or_pos n with hn | hn
  · subst hn
    refine ⟨1, one_pos, ?_⟩
    intro w b
    have hgW : ∀ i j, dlossdW 0 xs ys w b i j = 0 := by
      intro i j; rw [dlossdW]; simp
    have hgB : ∀ j, dlossdB 0 xs ys w b j = 0 := by
      intro j; rw [dlossdB]; simp
    have hW : updateW 1 0 xs ys w b = w := by
      funext i j
      show w i j - 1 * dlossdW 0 xs ys w b i j = w i j
      rw [hgW]; ring
    have hB : updateB 1 0 xs ys w b = b := by
      funext j
      show b j - 1 * dlossdB 0 xs ys w b j = b j
      rw [hgB]; ring
    rw [hW, hB]
  · have hcpos : (0 : ℝ) < (n : ℝ) * 10 := by
      have hnn : (0 : ℝ) < (n : ℝ) := Nat.cast_pos.mpr hn
      linarith
    have hBpos : (0 : ℝ) < ∑ s, 2 * (1 + ∑ i, xs s i ^ 2) := by
      have hne : (Finset.univ : Finset (Fin n)).Nonempty := by
        have : Nonempty (Fin n) := Fin.pos_iff_nonempty.mp hn
        exact Finset.univ_nonempty
      refine Finset.sum_pos (fun s _ => ?_) hne
      have hx : (0 : ℝ) ≤ ∑ i, xs s i ^ 2 := Finset.sum_nonneg fun i _ => sq_nonneg _
      linarith
    refine ⟨((n : ℝ) * 10) / (∑ s, 2 * (1 + ∑ i, xs s i ^ 2)),
      div_pos hcpos hBpos, ?_⟩
    intro w b
    have hη0 : (0 : ℝ) ≤ ((n : ℝ) * 10) / (∑ s, 2 * (1 + ∑ i, xs s i ^ 2)) :=
      le_of_lt (div_pos hcpos hBpos)
    have htay := pathVal_taylor_bound n ys (fun s k => lin w b (xs s) k)
      (fun s k => -((∑ i, xs s i * dlossdW n xs ys w b i k) + dlossdB n xs ys w b k))
      (((n : ℝ) * 10) / (∑ s, 2 * (1 + ∑ i, xs s i ^ 2))) hη0
    rw [pathVal_eq_loss_update n xs ys w b, pathVal_eq_loss_update n xs ys w b,
      pathDeriv_descent_zero n xs ys w b (ne_of_gt hcpos)] at htay
    have h0W : (fun i j => w i j - (0 : ℝ) * dlossdW n xs ys w b i j) = w := by
      funext i j; ring
    have h0B : (fun j => b j - (0 : ℝ) * dlossdB n xs ys w b j) = b := by
      funext j; ring
    rw [h0W, h0B] at htay
    have hG0 : (0 : ℝ) ≤ (∑ i, ∑ k, dlossdW n xs ys w b i k ^ 2) +
        ∑ k, dlossdB n xs ys w b k ^ 2 :=
      add_nonneg
        (Finset.sum_nonneg fun i _ => Finset.sum_nonneg fun k _ => sq_nonneg _)
        (Finset.sum_nonneg fun k _ => sq_nonneg _)
    have hdiv : (∑ s, ∑ k, (-((∑ i, xs s i * dlossdW n xs ys w b i k) +
          dlossdB n xs ys w b k)) ^ 2) / ((n : ℝ) * 10) ≤
        ((∑ s, 2 * (1 + ∑ i, xs s i ^ 2)) *
          ((∑ i, ∑ k, dlossdW n xs ys w b i k ^ 2) +
            ∑ k, dlossdB n xs ys w b k ^ 2)) / ((n : ℝ) * 10) :=
      div_le_div_of_nonneg_right (sq_dir_le n xs ys w b) (le_of_lt hcpos)
    have hquad : (((n : ℝ) * 10) / (∑ s, 2 * (1 + ∑ i, xs s i ^ 2))) ^ 2 *
          ((∑ s, ∑ k, (-((∑ i, xs s i * dlossdW n xs ys w b i k) +
            dlossdB n xs ys w b k)) ^ 2) / ((n : ℝ) * 10)) / 2 ≤
        (((n : ℝ) * 10) / (∑ s, 2 * (1 + ∑ i, xs s i ^ 2))) ^ 2 *
          (((∑ s, 2 * (1 + ∑ i, xs s i ^ 2)) *
            ((∑ i, ∑ k, dlossdW n xs ys w b i k ^ 2) +
              ∑ k, dlossdB n xs ys w b k ^ 2)) / ((n : ℝ) * 10)) / 2 := by
      have hmul := mul_le_mul_of_nonneg_left hdiv
        (sq_nonneg (((n : ℝ) * 10) / (∑ s, 2 * (1 + ∑ i, xs s i ^ 2))))
      linarith
    have harith : (((n : ℝ) * 10) / (∑ s, 2 * (1 + ∑ i, xs s i ^ 2))) *
          -((∑ i, ∑ k, dlossdW n xs ys w b i k ^ 2) +
            ∑ k, dlossdB n xs ys w b k ^ 2) +
        (((n : ℝ) * 10) / (∑ s, 2 * (1 + ∑ i, xs s i ^ 2))) ^ 2 *
          (((∑ s, 2 * (1 + ∑ i, xs s i ^ 2)) *
            ((∑ i, ∑ k, dlossdW n xs ys w b i k ^ 2) +
              ∑ k, dlossdB n xs ys w b k ^ 2)) / ((n : ℝ) * 10)) / 2 ≤ 0 := by
      have hq : (((n : ℝ) * 10) / (∑ s, 2 * (1 + ∑ i, xs s i ^ 2))) ^ 2 *
          (((∑ s, 2 * (1 + ∑ i, xs s i ^ 2)) *
            ((∑ i, ∑ k, dlossdW n xs ys w b i k ^ 2) +
              ∑ k, dlossdB n xs ys w b k ^ 2)) / ((n : ℝ) * 10)) / 2 =
          (((n : ℝ) * 10) / (∑ s, 2 * (1 + ∑ i, xs s i ^ 2))) *
            ((∑ i, ∑ k, dlossdW n xs ys w b i k ^ 2) +
              ∑ k, dlossdB n xs ys w b k ^ 2) / 2 := by
        field_simp
        ring
      rw [hq]
      have hηG : (0 : ℝ) ≤ (((n : ℝ) * 10) / (∑ s, 2 * (1 + ∑ i, xs s i ^ 2))) *
          ((∑ i, ∑ k, dlossdW n xs ys w b i k ^ 2) +
            ∑ k, dlossdB n xs ys w b k ^ 2) := mul_nonneg hη0 hG0
      linarith
    show loss n xs ys
        (fun i j => w i j - (((n : ℝ) * 10) / (∑ s, 2 * (1 + ∑ i, xs s i ^ 2))) *
          dlossdW n xs ys w b i j)
        (fun j => b j - (((n : ℝ) * 10) / (∑ s, 2 * (1 + ∑ i, xs s i ^ 2))) *
          dlossdB n xs ys w b j) ≤ loss n xs ys w b
    linarith [htay, hquad, harith]

/-! Shape model of graph construction and the shape invariant of the
trainable variables. -/

/-- The fatal graph-construction error of the error taxonomy. -/
inductive ShapeError where
  | shapeMismatch
deriving DecidableEq

/-- Modelled from the spec: TensorFlow's static shape inference for
`tf.matmul` of a `(None, d)` placeholder with a `(d1, d2)` variable.
Construction succeeds with output column count `d2` iff the inner
dimensions agree; otherwise graph construction itself fails with
`ShapeMismatch`, before any data is fed. -/
def matmulStaticShape (d : ℕ) (wshape : ℕ × ℕ) : Except ShapeError ℕ :=
  if d = wshape.1 then Except.ok wshape.2 else Except.error ShapeError.shapeMismatch

/-- Building `elementary_network` with an input placeholder of
per-sample dimension `d` against the fixed `(784, 10)` weights. -/
def buildElementaryNetwork (d : ℕ) : Except ShapeError ℕ :=
  matmulStaticShape d (784, 10)

/-- C6: constructing the forward model with an input dimension other
than the weights' 784 fails with `ShapeMismatch` at construction time;
a successful construction forces the input dimension to be exactly 784
(nothing is adapted to fit); and the `np.reshape` done by `evaluate`
is an element-preserving relabeling (pixel `(r, c)` lands at flat index
`28 * r + c`), never a truncation. -/
theorem shape_mismatch_fails_at_construction :
    (∀ d : ℕ, d ≠ 784 →
      buildElementaryNetwork d = Except.error ShapeError.shapeMismatch) ∧
    (∀ d c : ℕ, buildElementaryNetwork d = Except.ok c → d = 784 ∧ c = 10) ∧
    (∀ (img : Fin 28 → Fin 28 → ℝ) (i : Fin 784) (r c : Fin 28),
      (i : ℕ) = 28 * (r : ℕ) + (c : ℕ) → flattenImg img i = img r c) := by
  refine ⟨?_, ?_, ?_⟩
  · intro d hd
    simp [buildElementaryNetwork, matmulStaticShape, hd]
  · intro d c h
    by_cases hd : d = 784
    · subst hd
      simp only [buildElementaryNetwork, matmulStaticShape, if_pos rfl] at h
      exact ⟨rfl, (Except.ok.injEq _ _).mp h.symm⟩
    · simp [buildElementaryNetwork, matmulStaticShape, hd] at h
  · intro img i r c h
    unfold flattenImg
    have hr : (i : ℕ) / 28 = (r : ℕ) := by omega
    have hc : (i : ℕ) % 28 = (c : ℕ) := by omega
    simp only [hr, hc, Fin.eta]

/-- C6 witness: at input dimension 783 the construction fails with
`ShapeMismatch`. -/
theorem shape_mismatch_witness :
    buildElementaryNetwork 783 = Except.error ShapeError.shapeMismatch :=
  shape_mismatch_fails_at_construction.1 783 (by decide)

/-- The weights variable viewed as a nested list, shape `(784, 10)`. -/
def weightsList (w : Fin 784 → Fin 10 → ℝ) : List (List ℝ) :=
  List.ofFn fun i => List.ofFn fun j => w i j

/-- The bias variable viewed as a flat list, shape `(10,)`. -/
def biasList (b : Fin 10 → ℝ) : List ℝ :=
  List.ofFn b

/-- C7: the array shapes of the parameter set are fixed at
initialization — weights `(784, 10)`, bias `(10,)` — and every state
reached by any number of optimizer steps has exactly the shapes of the
initial state; no operation resizes them. -/
theorem parameter_shapes_invariant (m N : ℕ)
    (batchX : ℕ → Fin 128 → Fin 784 → ℝ) (batchY : ℕ → Fin 128 → ℕ)
    (testImages : Fin m → Fin 28 → Fin 28 → ℝ) (testLabels : Fin m → ℕ)
    (s0 : SessionState) (log0 : List ℝ) :
    (weightsList (trainLoop m batchX batchY testImages testLabels N 0
        (s0, log0)).1.weights).length =
      (weightsList s0.weights).length ∧
    (weightsList (trainLoop m batchX batchY testImages testLabels N 0
        (s0, log0)).1.weights).length = 784 ∧
    (∀ row ∈ weightsList (trainLoop m batchX batchY testImages testLabels N 0
        (s0, log0)).1.weights, row.length = 10) ∧
    (biasList (trainLoop m batchX batchY testImages testLabels N 0
        (s0, log0)).1.bias).length =
      (biasList s0.bias).length ∧
    (biasList (trainLoop m batchX batchY testImages testLabels N 0
        (s0, log0)).1.bias).length = 10 := by
  refine ⟨?_, ?_, ?_, ?_, ?_⟩
  · simp only [weightsList, List.length_ofFn]
  · simp only [weightsList, List.length_ofFn]
  · intro row hrow
    rw [weightsList] at hrow
    obtain ⟨i, hi⟩ := (List.mem_ofFn _ _).mp hrow
    rw [← hi, List.length_ofFn]
  · simp only [biasList, List.length_ofFn]
  · simp only [biasList, List.length_ofFn]

end

end Part2Classification
